import Mathlib

/-!
Shallow embedding of the Flow Launcher plugin `main.py` (Zed workspace
search).  Strings are modelled as Lean `String` (lists of characters /
Unicode code points, matching Python `str` length and indexing semantics);
ASCII-only operations (`str.lower`, `str.capitalize`, `str.strip`) are
modelled on the ASCII range, which is the range the plugin's path data and
every concrete input below use.  Python dicts are modelled as
insertion-ordered association lists (`dupdate` updates in place, appends
new keys at the end, exactly like CPython dicts).  The sqlite fetch and the
filesystem are external, so the fetch result is an explicit
`Except String (List Row)` input: `.error e` models `sqlite3` raising an
exception with text `e`, `.ok rows` models a successful `fetchall()` (a
missing database file, `return []`, coincides with `.ok []`).
-/

namespace ZedFlow

/-- Python values as they appear in the plugin's JSON-RPC parameter lists
(`[path, is_ssh, ssh_host, ssh_user, ssh_port]`): strings, booleans,
integers and `None`. -/
inductive PyVal where
  | vstr (s : String)
  | vbool (b : Bool)
  | vint (n : Int)
  | vnone
deriving DecidableEq, Repr

/-- Python truthiness (`if x:`) for the values above: non-empty strings,
`True`, and non-zero integers are truthy; `None` is falsy. -/
def pyTruthy : PyVal → Bool
  | .vstr s => decide (s ≠ "")
  | .vbool b => b
  | .vint n => decide (n ≠ 0)
  | .vnone => false

/-- `str(x)` as used by f-string interpolation (`f"(SSH: {ssh_host})"`). -/
def pyRepr : PyVal → String
  | .vstr s => s
  | .vbool b => if b then "True" else "False"
  | .vint n => toString n
  | .vnone => "None"

/-- Map backslash to forward slash: models the single-character
`p.replace("\\", "/")` in `normalize` (src/main.py line 39). -/
def bs2fs (c : Char) : Char :=
  if c = '\x5c' then '/' else c

/-- One pass of `s.replace("//", "/")`: replaces non-overlapping `//`
occurrences left to right by `/`, exactly like CPython `str.replace`. -/
def deslashOnce : List Char → List Char
  | a :: b :: rest =>
    if a = '/' && b = '/' then '/' :: deslashOnce rest else a :: deslashOnce (b :: rest)
  | l => l

/-- Does the character list contain two adjacent slashes?  Models
`"//" in s` (src/main.py line 41). -/
def hasDS : List Char → Bool
  | a :: b :: rest => (a = '/' && b = '/') || hasDS (b :: rest)
  | _ => false

/-- The `while "//" in s` loop of `normalize`, run with explicit fuel.
Each iteration strictly shortens the list, so fuel equal to the initial
length always reaches the loop's fixed point (proved below in
`hasDS_collapseSlashes`). -/
def collapseFuel : Nat → List Char → List Char
  | 0, l => l
  | fuel + 1, l => if hasDS l then collapseFuel fuel (deslashOnce l) else l

/-- The fully collapsed list: `while "//" in s: s = s.replace("//", "/")`
(src/main.py lines 41-42). -/
def collapseSlashes (l : List Char) : List Char :=
  collapseFuel l.length l

/-- `s.rstrip("/")`: remove the maximal run of trailing slashes
(src/main.py line 45). -/
def rstripSlashes : List Char → List Char
  | [] => []
  | c :: rest =>
    match rstripSlashes rest with
    | [] => if c = '/' then [] else [c]
    | r => c :: r

/-- `s.endswith("/")` on a character list. -/
def endsWithSlash (l : List Char) : Bool :=
  decide (l.getLast? = some '/')

/-- The conditional trailing-slash strip of `normalize`:
`if len(s) > 1 and s.endswith("/"): s = s.rstrip("/")`
(src/main.py lines 44-45). -/
def stripStep (s : List Char) : List Char :=
  if 1 < s.length ∧ endsWithSlash s then rstripSlashes s else s

/-- `normalize` from src/main.py lines 36-46, on character lists: replace
backslashes with slashes, collapse runs of slashes, strip trailing slashes
when the length exceeds one, lower-case.  (The `isinstance` guard of the
Python source is vacuous here because the argument is already a string.) -/
def normalizeChars (l : List Char) : List Char :=
  (stripStep (collapseSlashes (l.map bs2fs))).map Char.toLower

/-- `normalize(p)` from src/main.py lines 36-46. -/
def normalize (p : String) : String :=
  String.mk (normalizeChars p.data)

/-- Is `pat` a prefix of `hay`?  Models `str.startswith`. -/
def isPre : List Char → List Char → Bool
  | [], _ => true
  | _ :: _, [] => false
  | a :: as, b :: bs => a = b && isPre as bs

/-- `is_wsl_path(p)` from src/main.py lines 17-19:
`p.startswith("/home/") or p.startswith("/mnt/")`. -/
def is_wsl_path (p : String) : Bool :=
  isPre "/home/".data p.data || isPre "/mnt/".data p.data

/-- `is_wsl_path` applied to an arbitrary Python value, as in
`context_menu`: calling `.startswith` on a non-string raises
`AttributeError`, modelled by `none`. -/
def isWslPathVal : PyVal → Option Bool
  | .vstr s => some (is_wsl_path s)
  | _ => none

/-- Split a character list on `/`. -/
def splitSlash : List Char → List (List Char)
  | [] => [[]]
  | '/' :: rest => [] :: splitSlash rest
  | c :: rest =>
    match splitSlash rest with
    | [] => [[c]]
    | g :: gs => (c :: g) :: gs

/-- Drop a leading drive (`X:`), as `ntpath.splitdrive` does for non-UNC
paths: the drive is the first two characters when the second one is `:`. -/
def dropDrive : List Char → List Char
  | _ :: ':' :: rest => rest
  | l => l

/-- Models `pathlib.Path(p).name` under Windows path semantics for
non-UNC paths (the plugin runs on Windows, src/main.py line 14): convert
backslashes to slashes, drop a leading drive, split on `/`, discard empty
and `.` components, and return the last component (empty when there is
none).  Used at src/main.py lines 120 and 155. -/
def pathName (p : String) : String :=
  let s := dropDrive (p.data.map bs2fs)
  let comps := (splitSlash s).filter (fun c => !(decide (c = []) || decide (c = ['.'])))
  String.mk ((comps.getLast?).getD [])

/-- `str.lower()` (ASCII model), used on query strings and paths. -/
def pyLower (s : String) : String :=
  String.mk (s.data.map Char.toLower)

/-- Python whitespace for `str.strip()` (ASCII range). -/
def pySpace (c : Char) : Bool :=
  c = ' ' || c = '\t' || c = '\n' || c = '\r' || c = '\x0b' || c = '\x0c'

/-- `str.strip()`: drop leading and trailing whitespace. -/
def pyStrip (s : String) : String :=
  String.mk (((s.data.dropWhile pySpace).reverse.dropWhile pySpace).reverse)

/-- `str.capitalize()` (ASCII model): upper-case the first character and
lower-case all remaining characters (src/main.py line 157). -/
def pyCapitalize (s : String) : String :=
  String.mk (match s.data with
    | [] => []
    | c :: rest => Char.toUpper c :: rest.map Char.toLower)

/-- Substring containment on character lists (Python `pat in hay`). -/
def containsSub (hay pat : List Char) : Bool :=
  if isPre pat hay then true
  else
    match hay with
    | [] => false
    | _ :: t => containsSub t pat

/-- Python `needle in hay` on strings. -/
def pyIn (needle hay : String) : Bool :=
  containsSub hay.data needle.data

/-- Code-point lexicographic `≤` on strings, as Python string comparison
used by `list.sort(key=...)`. -/
def strLe : List Char → List Char → Bool
  | [], _ => true
  | _ :: _, [] => false
  | a :: as, b :: bs => if a < b then true else if b < a then false else strLe as bs

/-- A raw row of the `workspaces LEFT JOIN remote_connections` query
(src/main.py lines 59-70): `(workspace_id, paths, kind, host, port, user)`.
`path = none` models a NULL or non-string `paths` column; the remote
columns are NULL (`none`) for workspaces without a remote connection. -/
structure Row where
  wid : Int
  path : Option String
  rc_kind : Option String
  rc_host : Option String
  rc_port : Option Int
  rc_user : Option String
deriving DecidableEq, Repr

/-- The `workspace_data` dict built at src/main.py lines 83-96. -/
structure Workspace where
  id : Int
  path : String
  normalized : String
  is_wsl : Bool
  is_ssh : Bool
  ssh_host : Option String
  ssh_user : Option String
  ssh_port : Option Int
deriving DecidableEq, Repr

/-- Build `workspace_data` from a row whose path survived the usability
check (src/main.py lines 80-96): `is_ssh = (rc_kind == "ssh" and rc_host
is not None)`, `is_wsl = (not is_ssh) and is_wsl_path(path)`, and the ssh
fields are kept only when `is_ssh`. -/
def mkWorkspace (wid : Int) (path : String) (rc_kind rc_host : Option String)
    (rc_port : Option Int) (rc_user : Option String) : Workspace :=
  let is_ssh := decide (rc_kind = some "ssh") && rc_host.isSome
  { id := wid
    path := path
    normalized := normalize path
    is_wsl := !is_ssh && is_wsl_path path
    is_ssh := is_ssh
    ssh_host := if is_ssh then rc_host else none
    ssh_user := if is_ssh then rc_user else none
    ssh_port := if is_ssh then rc_port else none }

/-- The per-row body of the loop at src/main.py lines 76-96 up to the
usability check: `if not path or not isinstance(path, str): continue`
(empty, NULL and non-string paths yield no record). -/
def toWorkspace (r : Row) : Option Workspace :=
  match r.path with
  | some p => if p = "" then none else some (mkWorkspace r.wid p r.rc_kind r.rc_host r.rc_port r.rc_user)
  | none => none

/-- All records produced by the loop, in row order. -/
def records (rows : List Row) : List Workspace :=
  rows.filterMap toWorkspace

/-- Dict lookup (`m[k]` / `k in m`). -/
def dlookup {κ α : Type} [DecidableEq κ] : List (κ × α) → κ → Option α
  | [], _ => none
  | (k', v) :: rest, k => if k' = k then some v else dlookup rest k

/-- Dict assignment `m[k] = v`: update in place (keeping the key's
insertion position) or append a new key at the end, exactly as CPython
dicts behave. -/
def dupdate {κ α : Type} [DecidableEq κ] : List (κ × α) → κ → α → List (κ × α)
  | [], k, v => [(k, v)]
  | (k', v') :: rest, k, v =>
    if k' = k then (k, v) :: rest else (k', v') :: dupdate rest k v

/-- One step of the keyed "keep the shortest raw path" update shared by
the two dicts of src/main.py lines 98-110: insert when the key is new,
otherwise replace only when the new raw path is strictly shorter. -/
def stepBy {κ : Type} [DecidableEq κ] (key : Workspace → κ)
    (m : List (κ × Workspace)) (w : Workspace) : List (κ × Workspace) :=
  match dlookup m (key w) with
  | none => dupdate m (key w) w
  | some ex => if w.path.length < ex.path.length then dupdate m (key w) w else m

/-- The keyed dict after the whole loop of src/main.py lines 76-110.  The
source updates `by_normalized` and `by_workspace_id` inside one loop;
since each update touches only its own dict, the loop equals two
independent folds. -/
def buildBy {κ : Type} [DecidableEq κ] (key : Workspace → κ)
    (m : List (κ × Workspace)) : List Row → List (κ × Workspace)
  | [] => m
  | r :: rest =>
    buildBy key (match toWorkspace r with | none => m | some w => stepBy key m w) rest

/-- `by_normalized` (src/main.py lines 73, 98-104), keyed by the
normalized path. -/
def byNormalized (rows : List Row) : List (String × Workspace) :=
  buildBy (fun w => w.normalized) [] rows

/-- `by_workspace_id` (src/main.py lines 74, 106-110), keyed by the raw
workspace id. -/
def byWorkspaceId (rows : List Row) : List (Int × Workspace) :=
  buildBy (fun w => w.id) [] rows

/-- `results = list(by_normalized.values()) if by_normalized else
list(by_workspace_id.values())` (src/main.py lines 113-117). -/
def dedupValues (rows : List Row) : List Workspace :=
  let m1 := byNormalized rows
  if m1.isEmpty then (byWorkspaceId rows).map Prod.snd else m1.map Prod.snd

/-- Sort key of `results.sort(key=lambda r: Path(r["path"]).name.lower())`
(src/main.py line 120). -/
def nameKey (w : Workspace) : List Char :=
  (pyLower (pathName w.path)).data

/-- Stable insertion of one element into an already sorted list: equal
keys keep the earlier element first, as Python's stable sort does. -/
def insertSorted (a : Workspace) : List Workspace → List Workspace
  | [] => [a]
  | b :: rest => if strLe (nameKey b) (nameKey a) then b :: insertSorted a rest else a :: b :: rest

/-- Stable sort by lower-cased final path segment, modelling the stable
`results.sort(key=...)` of src/main.py line 120 (stability plus
sortedness under the total key preorder determine the output uniquely). -/
def sortByName (l : List Workspace) : List Workspace :=
  l.foldl (fun acc a => insertSorted a acc) []

/-- The synthetic error record built at src/main.py lines 125-132 when the
fetch raises `e`.  The Python dict carries only `id`, `path`, `is_wsl`,
`is_ssh`; the remaining fields of this structure model the absent keys
(`normalized` is never read on this record, `w.get("ssh_host")` etc.
return `None`). -/
def errPath (e : String) : String :=
  "<Error reading DB: " ++ e ++ ">"

/-- The error record itself. -/
def errorWorkspace (e : String) : Workspace :=
  { id := -1
    path := errPath e
    normalized := ""
    is_wsl := false
    is_ssh := false
    ssh_host := none
    ssh_user := none
    ssh_port := none }

/-- `_load_workspaces` (src/main.py lines 50-132) as a function of the
fetch outcome: an exception yields the single error record, a successful
fetch yields the deduplicated, name-sorted records (`.ok []` also covers
the missing-database early return). -/
def loadWorkspaces (fetch : Except String (List Row)) : List Workspace :=
  match fetch with
  | .error e => [errorWorkspace e]
  | .ok rows => sortByName (dedupValues rows)

/-- The JSON-RPC action attached to a presentation entry. -/
structure RpcAction where
  method : String
  parameters : List PyVal
deriving DecidableEq, Repr

/-- A presentation entry returned by `query`.  The no-results entry of
src/main.py lines 139-145 carries no `JsonRPCAction` and no `ContextData`
key, hence the `Option`s. -/
structure Pres where
  Title : String
  SubTitle : String
  IcoPath : String
  action : Option RpcAction
  contextData : Option (List PyVal)
deriving DecidableEq, Repr

/-- `str(ZED_DB_PATH)` (src/main.py lines 14 and 142); the home-directory
prefix is environment dependent and never inspected by any claim. -/
def zedDbPathStr : String :=
  "AppData/Local/Zed/db/0-stable/db.sqlite"

/-- The "No Zed workspaces found" entry (src/main.py lines 139-145). -/
def noResultsPres : Pres :=
  { Title := "No Zed workspaces found"
    SubTitle := zedDbPathStr
    IcoPath := "assets/zed.png"
    action := none
    contextData := none }

/-- `str(ssh_host)` as interpolated into the SSH title suffix. -/
def optStr : Option String → String
  | some h => h
  | none => "None"

/-- Lift an optional string into a JSON-RPC parameter. -/
def valOfOptStr : Option String → PyVal
  | some s => .vstr s
  | none => .vnone

/-- Lift an optional integer into a JSON-RPC parameter. -/
def valOfOptInt : Option Int → PyVal
  | some n => .vint n
  | none => .vnone

/-- `name = Path(w["path"]).name or w["path"]` (src/main.py line 155):
the final path segment, or the full path when no segment exists. -/
def baseName (w : Workspace) : String :=
  if pathName w.path = "" then w.path else pathName w.path

/-- `name = name.capitalize() if name else name` (src/main.py line 157). -/
def capName (w : Workspace) : String :=
  if baseName w = "" then baseName w else pyCapitalize (baseName w)

/-- The display title computed at src/main.py lines 152-168: last path
segment (or the full path when it has none), capitalized, with an
`" (SSH: <host>)"` or `" (WSL)"` suffix for remote records. -/
def titleOf (w : Workspace) : String :=
  if w.is_ssh then capName w ++ " (SSH: " ++ optStr w.ssh_host ++ ")"
  else if w.is_wsl then capName w ++ " (WSL)"
  else capName w

/-- The `[path, is_ssh, ssh_host, ssh_user, ssh_port]` parameter list
(src/main.py lines 177-183 and 185-191). -/
def paramsOf (w : Workspace) : List PyVal :=
  [.vstr w.path, .vbool w.is_ssh, valOfOptStr w.ssh_host, valOfOptStr w.ssh_user,
    valOfOptInt w.ssh_port]

/-- The presentation entry built for one record in the loop at
src/main.py lines 152-193. -/
def presOf (w : Workspace) : Pres :=
  { Title := titleOf w
    SubTitle := w.path
    IcoPath := "assets/zed.png"
    action := some { method := "open_workspace", parameters := paramsOf w }
    contextData := some (paramsOf w) }

/-- The dedup key of the final pass: `(r["Title"].strip().lower(),
r["SubTitle"].strip().lower())` (src/main.py line 198). -/
def keyOf (r : Pres) : String × String :=
  (pyLower (pyStrip r.Title), pyLower (pyStrip r.SubTitle))

/-- The final de-duplication loop of src/main.py lines 195-203, with the
`seen` set threaded explicitly (membership in a list of keys coincides
with Python set membership). -/
def dedupPresAux : List Pres → List (String × String) → List Pres
  | [], _ => []
  | p :: rest, seen =>
    if keyOf p ∈ seen then dedupPresAux rest seen
    else p :: dedupPresAux rest (keyOf p :: seen)

/-- The final de-duplication pass on presentation entries. -/
def dedupPresentation (l : List Pres) : List Pres :=
  dedupPresAux l []

/-- `query` (src/main.py lines 134-203) as a function of the query string
and the fetch outcome. -/
def query (queryStr : String) (fetch : Except String (List Row)) : List Pres :=
  let q := pyStrip (pyLower queryStr)
  let workspaces := loadWorkspaces fetch
  if workspaces.isEmpty then [noResultsPres]
  else
    let filtered := if q = "" then workspaces
      else workspaces.filter (fun w => pyIn q (pyLower w.path))
    dedupPresentation (filtered.map presOf)

/-- A context-menu action descriptor (src/main.py lines 250-260).  The
`SubTitle` is the raw `data[0]` value, so it is a `PyVal`. -/
structure MenuItem where
  Title : String
  SubTitle : PyVal
  IcoPath : String
  action : RpcAction
deriving DecidableEq, Repr

/-- The label selection of `context_menu` (src/main.py lines 243-248):
SSH when `is_ssh` is truthy, otherwise WSL/Windows by path prefix;
`none` models the `AttributeError` raised when `is_wsl_path` is called on
a non-string `data[0]`. -/
def cmLabel (path is_ssh ssh_host : PyVal) : Option String :=
  if pyTruthy is_ssh then some ("(SSH: " ++ pyRepr ssh_host ++ ")")
  else
    match isWslPathVal path with
    | none => none
    | some true => some "(WSL)"
    | some false => some "(Windows)"

/-- `context_menu` (src/main.py lines 236-260): `data[0]` raises
`IndexError` on an empty list (modelled by `none`); the later positions
default to `False`/`None` when absent (`data[i] if len(data) > i else ...`). -/
def context_menu (data : List PyVal) : Option (List MenuItem) :=
  match data with
  | [] => none
  | path :: _ =>
    (cmLabel path (data.getD 1 (.vbool false)) (data.getD 2 .vnone)).map (fun label =>
      [{ Title := "Open in Zed " ++ label
         SubTitle := path
         IcoPath := "assets/zed.png"
         action := { method := "open_in_zed",
                     parameters := [path, data.getD 1 (.vbool false), data.getD 2 .vnone,
                       data.getD 3 .vnone, data.getD 4 .vnone] } }])

/-- Specification-side selector: the first record of minimal raw-path
length in a group (`pickShorter` keeps the left record unless the right
one is strictly shorter). -/
def pickShorter (a b : Option Workspace) : Option Workspace :=
  match a, b with
  | none, b => b
  | some x, none => some x
  | some x, some y => if y.path.length < x.path.length then some y else some x

/-- The first record of minimal raw-path length in a list. -/
def firstMin : List Workspace → Option Workspace
  | [] => none
  | w :: rest => pickShorter (some w) (firstMin rest)

/-- The group of records sharing one normalized key, in row order. -/
def normGroup (rows : List Row) (k : String) : List Workspace :=
  (records rows).filter (fun v => decide (v.normalized = k))

/-- Specification-side rendering of the final presentation dedup: keep the
head, delete every later entry with the same key, recurse.  An entry
survives exactly when no earlier entry of the input has its key, and
survivors keep their input order. -/
def specSurvivors : List Pres → List Pres
  | [] => []
  | p :: rest => p :: specSurvivors (rest.filter (fun q => decide (keyOf q ≠ keyOf p)))
termination_by l => l.length
decreasing_by
  exact Nat.lt_succ_of_le (List.length_filter_le _ _)

/-- The dedup key as the claim words it: lower-cased title and subtitle,
with no whitespace stripping. -/
def keyLower (r : Pres) : String × String :=
  (pyLower r.Title, pyLower r.SubTitle)

/-- The final dedup pass as the claim describes it, with lower-cased but
unstripped keys (for comparison against the implementation). -/
def dedupPresLowerAux : List Pres → List (String × String) → List Pres
  | [], _ => []
  | p :: rest, seen =>
    if keyLower p ∈ seen then dedupPresLowerAux rest seen
    else p :: dedupPresLowerAux rest (keyLower p :: seen)

/-- The claim's lower-cased-only dedup pass. -/
def dedupPresentationLower (l : List Pres) : List Pres :=
  dedupPresLowerAux l []

/-- Upper-case only the first character, leaving the rest unchanged (the
title transformation exactly as the claim words it). -/
def upperFirstOnly (s : String) : String :=
  String.mk (match s.data with
    | [] => []
    | c :: rest => Char.toUpper c :: rest)

/-- The display title as the claim words it: final path segment (or full
path), first character upper-cased and every other character left
unchanged, then the connection suffix. -/
def titleClaimed (w : Workspace) : String :=
  if w.is_ssh then upperFirstOnly (baseName w) ++ " (SSH: " ++ optStr w.ssh_host ++ ")"
  else if w.is_wsl then upperFirstOnly (baseName w) ++ " (WSL)"
  else upperFirstOnly (baseName w)

/-- The display title as amended: final path segment (or full path),
first character upper-cased and every remaining character lower-cased,
then the connection suffix. -/
def titleAmended (w : Workspace) : String :=
  if w.is_ssh then upperFirstOnly (pyLower (baseName w)) ++ " (SSH: " ++ optStr w.ssh_host ++ ")"
  else if w.is_wsl then upperFirstOnly (pyLower (baseName w)) ++ " (WSL)"
  else upperFirstOnly (pyLower (baseName w))

end ZedFlow
namespace ZedFlow

theorem charToNatOfNat {n : Nat} (h : n ≤ 122) : (Char.ofNat n).toNat = n := by
  have hv : n.isValidChar := Or.inl (by omega)
  simp only [Char.ofNat, hv, dif_pos, Char.toNat, Char.ofNatAux]
  simp [UInt32.toNat, BitVec.toNat_ofNatLt]

theorem charEqOfToNat {c d : Char} (h : c.toNat = d.toNat) : c = d :=
  Char.ext (UInt32.ext h)

theorem toLowerToNat (c : Char) :
    (Char.toLower c).toNat = if 65 ≤ c.toNat ∧ c.toNat ≤ 90 then c.toNat + 32 else c.toNat := by
  simp only [Char.toLower]
  split
  case isTrue h => exact charToNatOfNat (by omega)
  case isFalse h => rfl

theorem toUpperToNat (c : Char) :
    (Char.toUpper c).toNat = if 97 ≤ c.toNat ∧ c.toNat ≤ 122 then c.toNat - 32 else c.toNat := by
  simp only [Char.toUpper]
  split
  case isTrue h => exact charToNatOfNat (by omega)
  case isFalse h => rfl

theorem toLowerIdem (c : Char) : Char.toLower (Char.toLower c) = Char.toLower c := by
  apply charEqOfToNat
  rw [toLowerToNat, toLowerToNat]
  by_cases h : 65 ≤ c.toNat ∧ c.toNat ≤ 90
  · simp only [if_pos h]
    rw [if_neg (by omega)]
  · simp only [if_neg h]

theorem toUpperToLower (c : Char) : Char.toUpper (Char.toLower c) = Char.toUpper c := by
  apply charEqOfToNat
  rw [toUpperToNat, toLowerToNat, toUpperToNat]
  by_cases h : 65 ≤ c.toNat ∧ c.toNat ≤ 90
  · simp only [if_pos h]
    rw [if_pos (by omega), if_neg (by omega)]
    omega
  · simp only [if_neg h]

theorem toLowerSlash {c : Char} (h : Char.toLower c = '/') : c = '/' := by
  have hn := congrArg Char.toNat h
  rw [toLowerToNat] at hn
  apply charEqOfToNat
  revert hn
  split <;> intro hn <;> simp_all

theorem toLowerSlashIff (c : Char) : (Char.toLower c = '/') ↔ (c = '/') :=
  ⟨toLowerSlash, fun h => by subst h; rfl⟩

theorem toLowerBackslash {c : Char} (h : Char.toLower c = '\x5c') : c = '\x5c' := by
  have hn := congrArg Char.toNat h
  rw [toLowerToNat] at hn
  apply charEqOfToNat
  revert hn
  split <;> intro hn <;> simp_all

end ZedFlow

namespace ZedFlow

theorem deslashOnce_length_le : ∀ l : List Char, (deslashOnce l).length ≤ l.length := by
  intro l
  induction l using deslashOnce.induct with
  | case1 a b rest hab ih =>
    simp only [deslashOnce, hab, if_true, List.length_cons]
    omega
  | case2 a b rest hab ih =>
    simp only [deslashOnce, hab, Bool.false_eq_true, if_false, List.length_cons]
    simp only [List.length_cons] at ih
    omega
  | case3 l h =>
    cases l with
    | nil => exact Nat.le_refl _
    | cons a t =>
      cases t with
      | nil => exact Nat.le_refl _
      | cons b m => exact absurd rfl (h a b m)

theorem deslashOnce_length_lt : ∀ l : List Char, hasDS l = true → (deslashOnce l).length < l.length := by
  intro l
  induction l using deslashOnce.induct with
  | case1 a b rest hab ih =>
    intro _
    simp only [deslashOnce, hab, if_true, List.length_cons]
    have := deslashOnce_length_le rest
    omega
  | case2 a b rest hab ih =>
    intro hds
    simp only [deslashOnce, hab, Bool.false_eq_true, if_false, List.length_cons]
    simp only [hasDS, hab, Bool.false_or] at hds
    have := ih hds
    simp only [List.length_cons] at this
    omega
  | case3 l h =>
    intro hds
    exfalso
    cases l with
    | nil => simp [hasDS] at hds
    | cons a t => cases t with
      | nil => simp [hasDS] at hds
      | cons b m => exact absurd rfl (h a b m)

end ZedFlow

namespace ZedFlow

theorem hasDS_collapseFuel : ∀ (fuel : Nat) (l : List Char), l.length ≤ fuel →
    hasDS (collapseFuel fuel l) = false := by
  intro fuel
  induction fuel with
  | zero =>
    intro l hl
    have : l = [] := List.eq_nil_of_length_eq_zero (Nat.le_zero.mp hl)
    subst this
    rfl
  | succ n ih =>
    intro l hl
    by_cases hds : hasDS l = true
    · have hlt := deslashOnce_length_lt l hds
      simp only [collapseFuel, hds, if_true]
      exact ih _ (by omega)
    · have hds' : hasDS l = false := by simpa using hds
      simp only [collapseFuel, hds', Bool.false_eq_true, if_false]

theorem collapseFuel_fix (fuel : Nat) (l : List Char) (h : hasDS l = false) :
    collapseFuel fuel l = l := by
  cases fuel with
  | zero => rfl
  | succ n => simp only [collapseFuel, h, Bool.false_eq_true, if_false]

theorem hasDS_collapseSlashes (l : List Char) : hasDS (collapseSlashes l) = false :=
  hasDS_collapseFuel l.length l (Nat.le_refl _)

theorem collapseSlashes_fix (l : List Char) (h : hasDS l = false) : collapseSlashes l = l :=
  collapseFuel_fix l.length l h

theorem mem_deslashOnce : ∀ (l : List Char) (c : Char), c ∈ deslashOnce l → c ∈ l := by
  intro l
  induction l using deslashOnce.induct with
  | case1 a b rest hab ih =>
    intro c hc
    simp only [deslashOnce, hab, if_true, List.mem_cons] at hc
    rcases hc with h1 | h2
    · subst h1
      have : a = '/' := by simpa using (Bool.and_eq_true_iff.mp hab).1
      simp [this]
    · have := ih c h2
      simp [List.mem_cons] at this ⊢
      tauto
  | case2 a b rest hab ih =>
    intro c hc
    simp only [deslashOnce, hab, Bool.false_eq_true, if_false, List.mem_cons] at hc
    rcases hc with h1 | h2
    · simp [h1]
    · have := ih c h2
      simp [List.mem_cons] at this ⊢
      tauto
  | case3 l h =>
    intro c hc
    cases l with
    | nil => exact hc
    | cons a t =>
      cases t with
      | nil => exact hc
      | cons b m => exact absurd rfl (h a b m)

theorem mem_collapseFuel : ∀ (fuel : Nat) (l : List Char) (c : Char),
    c ∈ collapseFuel fuel l → c ∈ l := by
  intro fuel
  induction fuel with
  | zero => intro l c hc; exact hc
  | succ n ih =>
    intro l c hc
    by_cases hds : hasDS l = true
    · simp only [collapseFuel, hds, if_true] at hc
      exact mem_deslashOnce l c (ih _ c hc)
    · have hds' : hasDS l = false := by simpa using hds
      simpa only [collapseFuel, hds', Bool.false_eq_true, if_false] using hc

theorem mem_collapseSlashes (l : List Char) (c : Char) (h : c ∈ collapseSlashes l) : c ∈ l :=
  mem_collapseFuel l.length l c h

theorem collapseFuel_ne_nil : ∀ (fuel : Nat) (l : List Char), l ≠ [] →
    collapseFuel fuel l ≠ [] := by
  intro fuel
  induction fuel with
  | zero => intro l h; exact h
  | succ n ih =>
    intro l h
    by_cases hds : hasDS l = true
    · simp only [collapseFuel, hds, if_true]
      apply ih
      cases l with
      | nil => simp [hasDS] at hds
      | cons a t =>
        cases t with
        | nil => simp [hasDS] at hds
        | cons b m =>
          simp only [deslashOnce]
          split <;> simp
    · have hds' : hasDS l = false := by simpa using hds
      simpa only [collapseFuel, hds', Bool.false_eq_true, if_false] using h

end ZedFlow

namespace ZedFlow

theorem bs2fs_ne_bs (c : Char) : bs2fs c ≠ '\x5c' := by
  unfold bs2fs
  split
  · decide
  · assumption

theorem not_bs_map_bs2fs (l : List Char) : '\x5c' ∉ l.map bs2fs := by
  intro h
  rcases List.mem_map.mp h with ⟨c, _, hc⟩
  exact bs2fs_ne_bs c hc

theorem map_bs2fs_id {l : List Char} (h : '\x5c' ∉ l) : l.map bs2fs = l := by
  induction l with
  | nil => rfl
  | cons c rest ih =>
    simp only [List.mem_cons, not_or] at h
    simp only [List.map_cons]
    rw [ih h.2]
    congr 1
    unfold bs2fs
    rw [if_neg (fun hc => h.1 hc.symm)]

theorem rstripSlashes_eq_nil_iff : ∀ l : List Char, rstripSlashes l = [] ↔ ∀ c ∈ l, c = '/' := by
  intro l
  induction l with
  | nil => simp [rstripSlashes]
  | cons c rest ih =>
    simp only [rstripSlashes]
    cases hr : rstripSlashes rest with
    | nil =>
      rw [hr] at ih
      simp only [true_iff] at ih
      by_cases hc : c = '/'
      · rw [if_pos hc]
        simp only [true_iff]
        intro d hd
        rcases List.mem_cons.mp hd with h1 | h2
        · rw [h1, hc]
        · exact ih d h2
      · rw [if_neg hc]
        simp only [List.cons_ne_nil, false_iff]
        intro hall
        exact hc (hall c (List.mem_cons_self c rest))
    | cons x xs =>
      rw [hr] at ih
      simp only [List.cons_ne_nil, false_iff] at ih
      simp only [List.cons_ne_nil, false_iff]
      intro hall
      exact ih (fun d hd => hall d (List.mem_cons_of_mem c hd))

theorem rstripSlashes_cons_shape (c : Char) (rest : List Char) :
    rstripSlashes (c :: rest) = [] ∨ ∃ r, rstripSlashes (c :: rest) = c :: r := by
  simp only [rstripSlashes]
  cases rstripSlashes rest with
  | nil =>
    by_cases hc : c = '/'
    · rw [if_pos hc]
      exact Or.inl rfl
    · rw [if_neg hc]
      exact Or.inr ⟨[], rfl⟩
  | cons x xs => exact Or.inr ⟨x :: xs, rfl⟩

theorem rstripSlashes_cons (c : Char) (rest : List Char) :
    rstripSlashes (c :: rest) =
      (match rstripSlashes rest with
       | [] => if c = '/' then [] else [c]
       | r => c :: r) := rfl

theorem hasDS_rstripSlashes : ∀ l : List Char, hasDS l = false → hasDS (rstripSlashes l) = false := by
  intro l
  induction l with
  | nil => intro _; rfl
  | cons c rest ih =>
    intro h
    rw [rstripSlashes_cons]
    cases rest with
    | nil =>
      show hasDS (if c = '/' then [] else [c]) = false
      by_cases hc : c = '/'
      · rw [if_pos hc]
        rfl
      · rw [if_neg hc]
        rfl
    | cons b m =>
      simp only [hasDS, Bool.or_eq_false_iff] at h
      have hbm : hasDS (b :: m) = false := h.2
      have ihr := ih hbm
      cases hr : rstripSlashes (b :: m) with
      | nil =>
        show hasDS (if c = '/' then [] else [c]) = false
        by_cases hc : c = '/'
        · rw [if_pos hc]
          rfl
        · rw [if_neg hc]
          rfl
      | cons x xs =>
        show hasDS (c :: x :: xs) = false
        rcases rstripSlashes_cons_shape b m with hsh | ⟨r, hsh⟩
        · rw [hsh] at hr
          cases hr
        · rw [hsh] at hr
          injection hr with hx hxs
          subst hx
          rw [hsh] at ihr
          simp only [hasDS, Bool.or_eq_false_iff]
          subst hxs
          exact ⟨h.1, ihr⟩

theorem endsWithSlash_rstripSlashes : ∀ l : List Char, endsWithSlash (rstripSlashes l) = false := by
  intro l
  induction l with
  | nil => rfl
  | cons c rest ih =>
    simp only [rstripSlashes]
    cases hr : rstripSlashes rest with
    | nil =>
      by_cases hc : c = '/'
      · rw [if_pos hc]
        rfl
      · rw [if_neg hc]
        simp only [endsWithSlash, List.getLast?_singleton]
        simpa using fun h => hc h
    | cons x xs =>
      rw [hr] at ih
      simp only [endsWithSlash] at ih ⊢
      rwa [List.getLast?_cons_cons]

theorem mem_rstripSlashes : ∀ (l : List Char) (c : Char), c ∈ rstripSlashes l → c ∈ l := by
  intro l
  induction l with
  | nil => intro c hc; exact hc
  | cons a rest ih =>
    intro c hc
    simp only [rstripSlashes] at hc
    cases hr : rstripSlashes rest with
    | nil =>
      rw [hr] at hc
      by_cases ha : a = '/'
      · rw [if_pos ha] at hc
        simp at hc
      · rw [if_neg ha] at hc
        rcases List.mem_singleton.mp hc with h1
        simp [h1]
    | cons x xs =>
      rw [hr] at hc
      rcases List.mem_cons.mp hc with h1 | h2
      · simp [h1]
      · have hm : c ∈ rstripSlashes rest := by
          rw [hr]
          exact h2
        exact List.mem_cons_of_mem a (ih c hm)

theorem allSlash_hasDS : ∀ l : List Char, (∀ c ∈ l, c = '/') → 1 < l.length → hasDS l = true := by
  intro l hall hlen
  cases l with
  | nil => simp at hlen
  | cons a t =>
    cases t with
    | nil => simp at hlen
    | cons b m =>
      have ha : a = '/' := hall a (by simp)
      have hb : b = '/' := hall b (by simp)
      subst ha hb
      simp [hasDS]

end ZedFlow

namespace ZedFlow

theorem hasDS_map_toLower : ∀ l : List Char, hasDS (l.map Char.toLower) = hasDS l := by
  intro l
  induction l with
  | nil => rfl
  | cons c rest ih =>
    cases rest with
    | nil => rfl
    | cons b m =>
      simp only [List.map_cons, hasDS]
      rw [← List.map_cons]
      rw [ih]
      congr 1
      have h1 : (decide (Char.toLower c = '/')) = (decide (c = '/')) := by
        simp [toLowerSlashIff]
      have h2 : (decide (Char.toLower b = '/')) = (decide (b = '/')) := by
        simp [toLowerSlashIff]
      rw [h1, h2]

theorem endsWithSlash_map_toLower (l : List Char) :
    endsWithSlash (l.map Char.toLower) = endsWithSlash l := by
  simp only [endsWithSlash, List.getLast?_map]
  cases l.getLast? with
  | none => rfl
  | some c => simp [toLowerSlashIff]

theorem not_bs_map_toLower {l : List Char} (h : '\x5c' ∉ l) : '\x5c' ∉ l.map Char.toLower := by
  intro hm
  rcases List.mem_map.mp hm with ⟨c, hc, hlc⟩
  exact h (toLowerBackslash hlc ▸ hc)

theorem map_toLower_idem (l : List Char) :
    (l.map Char.toLower).map Char.toLower = l.map Char.toLower := by
  rw [List.map_map]
  exact List.map_congr_left (fun c _ => toLowerIdem c)


theorem stripStep_noDS {s : List Char} (h : hasDS s = false) : hasDS (stripStep s) = false := by
  unfold stripStep
  split
  · exact hasDS_rstripSlashes _ h
  · exact h

theorem mem_stripStep {s : List Char} {c : Char} (h : c ∈ stripStep s) : c ∈ s := by
  unfold stripStep at h
  revert h
  split
  · exact fun h => mem_rstripSlashes _ _ h
  · exact fun h => h

theorem stripStep_fix {s : List Char} (h : ¬(1 < s.length ∧ endsWithSlash s = true)) :
    stripStep s = s := by
  unfold stripStep
  rw [if_neg h]

theorem endsWithSlash_stripStep (s : List Char) :
    ¬(1 < (stripStep s).length ∧ endsWithSlash (stripStep s) = true) := by
  unfold stripStep
  split
  case isTrue h =>
    rw [endsWithSlash_rstripSlashes]
    exact fun hc => Bool.false_ne_true hc.2
  case isFalse h => exact h

theorem stripStep_ne_nil {s : List Char} (hds : hasDS s = false) (h : s ≠ []) :
    stripStep s ≠ [] := by
  unfold stripStep
  split
  case isTrue hc =>
    intro hcontr
    have hall := (rstripSlashes_eq_nil_iff s).mp hcontr
    have := allSlash_hasDS s hall hc.1
    rw [hds] at this
    exact Bool.false_ne_true this
  case isFalse hc => exact h

theorem normalizeChars_idem (l : List Char) :
    normalizeChars (normalizeChars l) = normalizeChars l := by
  unfold normalizeChars
  set s3 := stripStep (collapseSlashes (l.map bs2fs)) with hs3
  have hds2 : hasDS (collapseSlashes (l.map bs2fs)) = false := hasDS_collapseSlashes _
  have hds3 : hasDS s3 = false := by
    rw [hs3]
    exact stripStep_noDS hds2
  have hbs3 : '\x5c' ∉ s3 := by
    rw [hs3]
    exact fun hm => not_bs_map_bs2fs l (mem_collapseSlashes _ _ (mem_stripStep hm))
  have hy_bs : '\x5c' ∉ s3.map Char.toLower := not_bs_map_toLower hbs3
  have hy_ds : hasDS (s3.map Char.toLower) = false := by
    rw [hasDS_map_toLower]
    exact hds3
  have hcond : ¬(1 < (s3.map Char.toLower).length ∧ endsWithSlash (s3.map Char.toLower) = true) := by
    rw [List.length_map, endsWithSlash_map_toLower]
    rw [hs3]
    exact endsWithSlash_stripStep _
  rw [map_bs2fs_id hy_bs, collapseSlashes_fix _ hy_ds, stripStep_fix hcond, map_toLower_idem]

theorem normalizeChars_ne_nil {l : List Char} (h : l ≠ []) : normalizeChars l ≠ [] := by
  unfold normalizeChars
  have hds2 : hasDS (collapseSlashes (l.map bs2fs)) = false := hasDS_collapseSlashes _
  have hs2ne : collapseSlashes (l.map bs2fs) ≠ [] := by
    apply collapseFuel_ne_nil
    simpa using h
  intro hcontr
  rw [List.map_eq_nil_iff] at hcontr
  exact stripStep_ne_nil hds2 hs2ne hcontr

theorem normalize_ne_empty {p : String} (h : p ≠ "") : normalize p ≠ "" := by
  intro hc
  have hdata : normalizeChars p.data = [] := by
    have : (normalize p).data = ("" : String).data := by rw [hc]
    exact this
  have hdne : p.data ≠ [] := by
    intro hdn
    apply h
    cases p with
    | mk d =>
      rw [show d = [] from hdn]
  exact normalizeChars_ne_nil hdne hdata

theorem dlookup_dupdate_self {κ α : Type} [DecidableEq κ] (m : List (κ × α)) (k : κ) (v : α) :
    dlookup (dupdate m k v) k = some v := by
  induction m with
  | nil => simp [dupdate, dlookup]
  | cons p rest ih =>
    obtain ⟨k', v'⟩ := p
    by_cases h : k' = k
    · simp [dupdate, dlookup, h]
    · simp only [dupdate, if_neg h, dlookup]
      exact ih

theorem dlookup_dupdate_ne {κ α : Type} [DecidableEq κ] (m : List (κ × α)) (k k' : κ) (v : α)
    (h : k' ≠ k) : dlookup (dupdate m k v) k' = dlookup m k' := by
  have hkk : ¬(k = k') := fun hc => h hc.symm
  induction m with
  | nil =>
    simp only [dupdate, dlookup]
    rw [if_neg hkk]
  | cons p rest ih =>
    obtain ⟨k0, v0⟩ := p
    by_cases h0 : k0 = k
    · subst h0
      simp only [dupdate, if_pos rfl, dlookup]
      rw [if_neg hkk, if_neg hkk]
    · simp only [dupdate, if_neg h0, dlookup]
      by_cases h1 : k0 = k'
      · rw [if_pos h1, if_pos h1]
      · rw [if_neg h1, if_neg h1]
        exact ih

theorem dupdate_ne_nil {κ α : Type} [DecidableEq κ] (m : List (κ × α)) (k : κ) (v : α) :
    dupdate m k v ≠ [] := by
  cases m with
  | nil => simp [dupdate]
  | cons p rest =>
    obtain ⟨k', v'⟩ := p
    simp only [dupdate]
    split <;> simp

theorem dlookup_ne_nil {κ α : Type} [DecidableEq κ] {m : List (κ × α)} {k : κ} {v : α}
    (h : dlookup m k = some v) : m ≠ [] := by
  intro hc
  subst hc
  simp [dlookup] at h

theorem pickShorter_none_right (a : Option Workspace) : pickShorter a none = a := by
  cases a <;> rfl

theorem pickShorter_some_some (x y : Workspace) :
    pickShorter (some x) (some y) =
      if y.path.length < x.path.length then some y else some x := rfl

theorem pickShorter_assoc (a b c : Option Workspace) :
    pickShorter (pickShorter a b) c = pickShorter a (pickShorter b c) := by
  cases a with
  | none => rfl
  | some x =>
    cases b with
    | none => cases c <;> rfl
    | some y =>
      cases c with
      | none =>
        rw [pickShorter_none_right, pickShorter_none_right]
      | some z =>
        rw [pickShorter_some_some x y, pickShorter_some_some y z]
        by_cases hyx : y.path.length < x.path.length
        · rw [if_pos hyx]
          by_cases hzy : z.path.length < y.path.length
          · rw [if_pos hzy, pickShorter_some_some y z, if_pos hzy,
              pickShorter_some_some x z, if_pos (by omega)]
          · rw [if_neg hzy, pickShorter_some_some y z, if_neg hzy,
              pickShorter_some_some x y, if_pos hyx]
        · rw [if_neg hyx]
          by_cases hzy : z.path.length < y.path.length
          · rw [if_pos hzy, pickShorter_some_some x z]
          · rw [if_neg hzy, pickShorter_some_some x z, if_neg (by omega),
              pickShorter_some_some x y, if_neg hyx]

theorem stepBy_lookup_self {κ : Type} [DecidableEq κ] (key : Workspace → κ)
    (m : List (κ × Workspace)) (w : Workspace) :
    dlookup (stepBy key m w) (key w) = pickShorter (dlookup m (key w)) (some w) := by
  unfold stepBy
  cases hm : dlookup m (key w) with
  | none =>
    simp only [pickShorter]
    exact dlookup_dupdate_self m (key w) w
  | some ex =>
    show dlookup (if w.path.length < ex.path.length then dupdate m (key w) w else m) (key w)
      = pickShorter (some ex) (some w)
    rw [pickShorter_some_some ex w]
    by_cases hlt : w.path.length < ex.path.length
    · rw [if_pos hlt, if_pos hlt]
      exact dlookup_dupdate_self m (key w) w
    · rw [if_neg hlt, if_neg hlt]
      exact hm

theorem stepBy_lookup_ne {κ : Type} [DecidableEq κ] (key : Workspace → κ)
    (m : List (κ × Workspace)) (w : Workspace) (k : κ) (h : k ≠ key w) :
    dlookup (stepBy key m w) k = dlookup m k := by
  unfold stepBy
  cases hm : dlookup m (key w) with
  | none => exact dlookup_dupdate_ne m (key w) k w h
  | some ex =>
    show dlookup (if w.path.length < ex.path.length then dupdate m (key w) w else m) k
      = dlookup m k
    split
    · exact dlookup_dupdate_ne m (key w) k w h
    · rfl

theorem buildBy_lookup {κ : Type} [DecidableEq κ] (key : Workspace → κ) :
    ∀ (rows : List Row) (m : List (κ × Workspace)) (k : κ),
    dlookup (buildBy key m rows) k =
      pickShorter (dlookup m k)
        (firstMin ((records rows).filter (fun w => decide (key w = k)))) := by
  intro rows
  induction rows with
  | nil =>
    intro m k
    simp only [buildBy, records, List.filterMap_nil, List.filter_nil, firstMin]
    rw [pickShorter_none_right]
  | cons r rest ih =>
    intro m k
    simp only [buildBy, records, List.filterMap_cons]
    cases hw : toWorkspace r with
    | none => exact ih m k
    | some w =>
      rw [List.filter_cons]
      by_cases hk : key w = k
      · subst hk
        rw [if_pos (by simp)]
        rw [ih (stepBy key m w) (key w), stepBy_lookup_self, pickShorter_assoc]
        rfl
      · rw [if_neg (by simpa using hk)]
        rw [ih (stepBy key m w) k, stepBy_lookup_ne key m w k (fun hc => hk hc.symm)]
        rfl

theorem byNormalized_lookup (rows : List Row) (k : String) :
    dlookup (byNormalized rows) k = firstMin (normGroup rows k) := by
  unfold byNormalized normGroup
  rw [buildBy_lookup]
  rfl

theorem firstMin_mem : ∀ (g : List Workspace) (w : Workspace), firstMin g = some w → w ∈ g := by
  intro g
  induction g with
  | nil => intro w h; cases h
  | cons x rest ih =>
    intro w h
    simp only [firstMin] at h
    cases hr : firstMin rest with
    | none =>
      rw [hr, pickShorter_none_right] at h
      injection h with h
      simp [h]
    | some v =>
      rw [hr, pickShorter_some_some x v] at h
      split at h
      · injection h with h
        exact List.mem_cons_of_mem x (ih w (h ▸ hr))
      · injection h with h
        simp [h]

theorem pickShorter_some_ne_none (x : Workspace) (b : Option Workspace) :
    pickShorter (some x) b ≠ none := by
  cases b with
  | none => simp [pickShorter]
  | some y =>
    rw [pickShorter_some_some]
    split <;> simp

theorem firstMin_none_eq_nil {g : List Workspace} (h : firstMin g = none) : g = [] := by
  cases g with
  | nil => rfl
  | cons y m =>
    exact absurd h (pickShorter_some_ne_none y (firstMin m))

theorem firstMin_min : ∀ (g : List Workspace) (w : Workspace), firstMin g = some w →
    ∀ v ∈ g, w.path.length ≤ v.path.length := by
  intro g
  induction g with
  | nil => intro w h; cases h
  | cons x rest ih =>
    intro w h v hv
    simp only [firstMin] at h
    cases hr : firstMin rest with
    | none =>
      have hrest : rest = [] := firstMin_none_eq_nil hr
      subst hrest
      rw [hr, pickShorter_none_right] at h
      injection h with h
      subst h
      rcases List.mem_cons.mp hv with h1 | h2
      · rw [h1]
      · simp at h2
    | some u =>
      rw [hr, pickShorter_some_some x u] at h
      have hmin := ih u hr
      split at h
      case isTrue hlt =>
        injection h with h
        subst h
        rcases List.mem_cons.mp hv with h1 | h2
        · rw [h1]
          omega
        · exact hmin v h2
      case isFalse hlt =>
        injection h with h
        subst h
        rcases List.mem_cons.mp hv with h1 | h2
        · rw [h1]
        · have := hmin v h2
          omega

theorem firstMin_first : ∀ (g : List Workspace) (w : Workspace), firstMin g = some w →
    ∃ pre post, g = pre ++ w :: post ∧ ∀ v ∈ pre, w.path.length < v.path.length := by
  intro g
  induction g with
  | nil => intro w h; cases h
  | cons x rest ih =>
    intro w h
    simp only [firstMin] at h
    cases hr : firstMin rest with
    | none =>
      have hrest : rest = [] := firstMin_none_eq_nil hr
      subst hrest
      rw [hr, pickShorter_none_right] at h
      injection h with h
      subst h
      exact ⟨[], [], rfl, by simp⟩
    | some u =>
      rw [hr, pickShorter_some_some x u] at h
      split at h
      case isTrue hlt =>
        obtain ⟨pre, post, heq, hpre⟩ := ih u hr
        injection h with h
        subst h
        refine ⟨x :: pre, post, by rw [heq]; rfl, ?_⟩
        intro v hv
        rcases List.mem_cons.mp hv with h1 | h2
        · rw [h1]
          exact hlt
        · exact hpre v h2
      case isFalse hlt =>
        injection h with h
        subst h
        exact ⟨[], rest, rfl, by simp⟩


theorem stepBy_ne_nil {κ : Type} [DecidableEq κ] (key : Workspace → κ)
    (m : List (κ × Workspace)) (w : Workspace) : stepBy key m w ≠ [] := by
  unfold stepBy
  cases hm : dlookup m (key w) with
  | none => exact dupdate_ne_nil m (key w) w
  | some ex =>
    show (if w.path.length < ex.path.length then dupdate m (key w) w else m) ≠ []
    split
    · exact dupdate_ne_nil m (key w) w
    · exact dlookup_ne_nil hm

theorem buildBy_nil_iff {κ : Type} [DecidableEq κ] (key : Workspace → κ) :
    ∀ (rows : List Row) (m : List (κ × Workspace)),
    (buildBy key m rows = [] ↔ m = [] ∧ records rows = []) := by
  intro rows
  induction rows with
  | nil =>
    intro m
    simp [buildBy, records]
  | cons r rest ih =>
    intro m
    simp only [buildBy, records, List.filterMap_cons]
    cases hw : toWorkspace r with
    | none => exact ih m
    | some w =>
      rw [ih (stepBy key m w)]
      constructor
      · intro h
        exact absurd h.1 (stepBy_ne_nil key m w)
      · intro h
        exact absurd h.2 (List.cons_ne_nil w (List.filterMap toWorkspace rest))

theorem byNormalized_nil_iff (rows : List Row) :
    byNormalized rows = [] ↔ records rows = [] := by
  unfold byNormalized
  rw [buildBy_nil_iff]
  simp

theorem byWorkspaceId_nil_iff (rows : List Row) :
    byWorkspaceId rows = [] ↔ records rows = [] := by
  unfold byWorkspaceId
  rw [buildBy_nil_iff]
  simp

theorem dedupValues_eq_byNormalized (rows : List Row) :
    dedupValues rows = (byNormalized rows).map Prod.snd := by
  unfold dedupValues
  simp only []
  split
  case isTrue h =>
    have h1 : byNormalized rows = [] := by simpa [List.isEmpty_iff] using h
    have h2 : byWorkspaceId rows = [] :=
      (byWorkspaceId_nil_iff rows).mpr ((byNormalized_nil_iff rows).mp h1)
    rw [h1, h2]
    rfl
  case isFalse h => rfl

theorem records_nil_of_empty_keys {rows : List Row}
    (h : ∀ r ∈ rows, ∀ p : String, r.path = some p → normalize p = "") :
    records rows = [] := by
  unfold records
  rw [List.filterMap_eq_nil_iff]
  intro r hr
  unfold toWorkspace
  cases hp : r.path with
  | none => rfl
  | some p =>
    have hnp := h r hr p hp
    have hpe : p = "" := by
      by_contra hne
      exact normalize_ne_empty hne hnp
    show (if p = "" then (none : Option Workspace)
      else some (mkWorkspace r.wid p r.rc_kind r.rc_host r.rc_port r.rc_user)) = none
    rw [if_pos hpe]

theorem loadWorkspaces_empty_of_no_records {rows : List Row} (h : records rows = []) :
    loadWorkspaces (Except.ok rows) = [] := by
  show sortByName (dedupValues rows) = []
  rw [dedupValues_eq_byNormalized, (byNormalized_nil_iff rows).mpr h]
  rfl

theorem dedupPresAux_spec : ∀ (l : List Pres) (seen : List (String × String)),
    dedupPresAux l seen = specSurvivors (l.filter (fun q => decide (keyOf q ∉ seen))) := by
  intro l
  induction l with
  | nil => intro seen; simp [dedupPresAux, specSurvivors]
  | cons p rest ih =>
    intro seen
    by_cases h : keyOf p ∈ seen
    · rw [show dedupPresAux (p :: rest) seen = dedupPresAux rest seen by
        simp [dedupPresAux, h]]
      rw [List.filter_cons, if_neg (by simpa using h)]
      exact ih seen
    · rw [show dedupPresAux (p :: rest) seen = p :: dedupPresAux rest (keyOf p :: seen) by
        simp [dedupPresAux, h]]
      rw [List.filter_cons, if_pos (by simpa using h)]
      rw [specSurvivors]
      congr 1
      rw [ih (keyOf p :: seen)]
      congr 1
      rw [List.filter_filter]
      apply List.filter_congr
      intro q _
      by_cases h1 : keyOf q = keyOf p <;> by_cases h2 : keyOf q ∈ seen <;>
        simp [h1, h2, List.mem_cons]

theorem containsSub_nil_pat (hay : List Char) : containsSub hay [] = true := by
  cases hay <;> rfl

theorem pyIn_empty_needle (hay : String) : pyIn "" hay = true :=
  containsSub_nil_pat hay.data

theorem dedupPresentation_singleton (x : Pres) : dedupPresentation [x] = [x] := by
  unfold dedupPresentation dedupPresAux
  rw [if_neg (by simp)]
  rfl

theorem query_error (e qs : String) :
    query qs (Except.error e) =
      if pyIn (pyStrip (pyLower qs)) (pyLower (errPath e)) = true
      then [presOf (errorWorkspace e)] else [] := by
  unfold query
  show (if ([errorWorkspace e] : List Workspace).isEmpty = true then [noResultsPres]
    else
      dedupPresentation
        ((if pyStrip (pyLower qs) = "" then [errorWorkspace e]
          else [errorWorkspace e].filter
            (fun w => pyIn (pyStrip (pyLower qs)) (pyLower w.path))).map presOf)) = _
  rw [if_neg (by simp)]
  by_cases hq : pyStrip (pyLower qs) = ""
  · rw [if_pos hq, hq]
    rw [if_pos (pyIn_empty_needle _)]
    exact dedupPresentation_singleton _
  · rw [if_neg hq]
    rw [List.filter_cons]
    cases hf : pyIn (pyStrip (pyLower qs)) (pyLower (errorWorkspace e).path) with
    | true =>
      rw [if_pos (by rfl)]
      rw [if_pos (by exact hf)]
      rw [List.filter_nil]
      exact dedupPresentation_singleton _
    | false =>
      have hf2 : pyIn (pyStrip (pyLower qs)) (pyLower (errPath e)) = false := hf
      rw [if_neg (by simp)]
      rw [if_neg (by rw [hf2]; simp)]
      rw [List.filter_nil]
      rfl

theorem pyCapitalize_eq_upperFirst_lower (s : String) :
    pyCapitalize s = upperFirstOnly (pyLower s) := by
  unfold pyCapitalize upperFirstOnly pyLower
  cases s with
  | mk d =>
    cases d with
    | nil => rfl
    | cons c rest =>
      show String.mk (Char.toUpper c :: rest.map Char.toLower)
        = String.mk (Char.toUpper (Char.toLower c) :: rest.map Char.toLower)
      rw [toUpperToLower]

theorem capName_eq (w : Workspace) : capName w = upperFirstOnly (pyLower (baseName w)) := by
  unfold capName
  by_cases hn : baseName w = ""
  · rw [if_pos hn, hn]
    rfl
  · rw [if_neg hn]
    exact pyCapitalize_eq_upperFirst_lower _

theorem titleOf_eq_titleAmended (w : Workspace) : titleOf w = titleAmended w := by
  unfold titleOf titleAmended
  rw [capName_eq]

theorem cmLabel_isSome_of (path is_ssh ssh_host : PyVal)
    (h : (∃ s, path = PyVal.vstr s) ∨ pyTruthy is_ssh = true) :
    ∃ lbl, cmLabel path is_ssh ssh_host = some lbl := by
  unfold cmLabel
  by_cases ht : pyTruthy is_ssh = true
  · rw [if_pos ht]
    exact ⟨_, rfl⟩
  · rcases h with ⟨s, rfl⟩ | htr
    · rw [if_neg ht]
      cases hw : is_wsl_path s with
      | true =>
        refine ⟨"(WSL)", ?_⟩
        show (match isWslPathVal (PyVal.vstr s) with
          | none => (none : Option String)
          | some true => some "(WSL)"
          | some false => some "(Windows)") = some "(WSL)"
        rw [show isWslPathVal (PyVal.vstr s) = some (is_wsl_path s) from rfl, hw]
      | false =>
        refine ⟨"(Windows)", ?_⟩
        show (match isWslPathVal (PyVal.vstr s) with
          | none => (none : Option String)
          | some true => some "(WSL)"
          | some false => some "(Windows)") = some "(Windows)"
        rw [show isWslPathVal (PyVal.vstr s) = some (is_wsl_path s) from rfl, hw]
    · exact absurd htr ht

theorem context_menu_cons (d : PyVal) (rest : List PyVal) :
    context_menu (d :: rest) =
      (cmLabel d ((d :: rest).getD 1 (.vbool false)) ((d :: rest).getD 2 .vnone)).map
        (fun label =>
          [{ Title := "Open in Zed " ++ label
             SubTitle := d
             IcoPath := "assets/zed.png"
             action := { method := "open_in_zed",
                         parameters := [d, (d :: rest).getD 1 (.vbool false),
                           (d :: rest).getD 2 .vnone, (d :: rest).getD 3 .vnone,
                           (d :: rest).getD 4 .vnone] } }]) := rfl

/-- C1: for every fetched row sequence and every normalized key, the
record stored in `by_normalized` for that key belongs to the key's group,
has minimal raw-path length within the group, and is the first record in
row order attaining that minimum (every group member seen strictly
earlier has a strictly longer raw path), i.e. the current representative
is replaced only by a strictly shorter path. -/
theorem c1_canonical_is_first_shortest (rows : List Row) (k : String) (w : Workspace)
    (h : dlookup (byNormalized rows) k = some w) :
    w ∈ normGroup rows k ∧
      (∀ v ∈ normGroup rows k, w.path.length ≤ v.path.length) ∧
      ∃ pre post, normGroup rows k = pre ++ w :: post ∧
        ∀ v ∈ pre, w.path.length < v.path.length := by
  have he := byNormalized_lookup rows k
  rw [h] at he
  exact ⟨firstMin_mem _ _ he.symm, firstMin_min _ _ he.symm, firstMin_first _ _ he.symm⟩

/-- Witness for C1 at the spec's own example: rows `"/a/b/proj/"` then
`"/a/b/proj"` share the key `"/a/b/proj"` and the shorter second row wins. -/
theorem c1_witness :
    (mkWorkspace 2 "/a/b/proj" none none none none) ∈
        normGroup [⟨1, some "/a/b/proj/", none, none, none, none⟩,
          ⟨2, some "/a/b/proj", none, none, none, none⟩] "/a/b/proj" ∧
      (∀ v ∈ normGroup [⟨1, some "/a/b/proj/", none, none, none, none⟩,
          ⟨2, some "/a/b/proj", none, none, none, none⟩] "/a/b/proj",
        (mkWorkspace 2 "/a/b/proj" none none none none).path.length ≤ v.path.length) ∧
      ∃ pre post, normGroup [⟨1, some "/a/b/proj/", none, none, none, none⟩,
          ⟨2, some "/a/b/proj", none, none, none, none⟩] "/a/b/proj"
          = pre ++ (mkWorkspace 2 "/a/b/proj" none none none none) :: post ∧
        ∀ v ∈ pre, (mkWorkspace 2 "/a/b/proj" none none none none).path.length < v.path.length :=
  c1_canonical_is_first_shortest _ _ _ (by decide)

/-- C2 (amended): when the fetch raises, the load step yields the single
synthetic error record, and `query` then treats it like any other record:
the substring filter is applied to it, so the result is that one record
(carrying an ordinary `open_workspace` launch action whose path parameter
is the error text) exactly when the lowered, stripped query occurs in the
lower-cased error text, and the empty list otherwise. -/
theorem c2_error_record_is_filtered (e qs : String) :
    query qs (Except.error e) =
      (if pyIn (pyStrip (pyLower qs)) (pyLower (errPath e)) = true
       then [presOf (errorWorkspace e)] else []) ∧
    (presOf (errorWorkspace e)).action =
      some { method := "open_workspace", parameters := paramsOf (errorWorkspace e) } :=
  ⟨query_error e qs, rfl⟩

/-- Counterexample to C2 as stated: for the query `"zzz"` the filter is
not skipped and no synthetic record is returned at all, and for the empty
query the returned error record does carry a launch action. -/
theorem c2_counterexample :
    query "zzz" (Except.error "boom") = [] ∧
    query "" (Except.error "boom") = [presOf (errorWorkspace "boom")] ∧
    (presOf (errorWorkspace "boom")).action.isSome = true := by
  exact ⟨by decide, by decide, by decide⟩

/-- C3 (amended): a derived record is SSH iff the row's remote kind is
the literal `"ssh"` and its remote host is present (not NULL); an empty
host string still counts as present. -/
theorem c3_ssh_iff_kind_and_host_present (r : Row) (w : Workspace)
    (h : toWorkspace r = some w) :
    (w.is_ssh = true ↔ (r.rc_kind = some "ssh" ∧ r.rc_host ≠ none)) := by
  unfold toWorkspace at h
  cases hp : r.path with
  | none =>
    rw [hp] at h
    simp at h
  | some p =>
    rw [hp] at h
    have h2 : (if p = "" then none
      else some (mkWorkspace r.wid p r.rc_kind r.rc_host r.rc_port r.rc_user)) = some w := h
    split at h2
    · cases h2
    · injection h2 with h2
      subst h2
      show (decide (r.rc_kind = some "ssh") && r.rc_host.isSome) = true ↔ _
      simp [Option.isSome_iff_ne_none]

/-- Witness for C3 (amended) at a concrete SSH row. -/
theorem c3_witness :
    ((mkWorkspace 3 "/srv/app" (some "ssh") (some "box1") (some 2222) (some "dev")).is_ssh = true
      ↔ ((⟨3, some "/srv/app", some "ssh", some "box1", some 2222, some "dev"⟩ : Row).rc_kind
            = some "ssh" ∧
         (⟨3, some "/srv/app", some "ssh", some "box1", some 2222, some "dev"⟩ : Row).rc_host
            ≠ none)) :=
  c3_ssh_iff_kind_and_host_present
    ⟨3, some "/srv/app", some "ssh", some "box1", some 2222, some "dev"⟩ _ (by decide)

/-- Counterexample to C3 as stated: a row with `remote_kind = "ssh"` and
`remote_host = ""` (empty string, not NULL) is classified as SSH by the
code, while the claim says it must not be. -/
theorem c3_counterexample :
    (toWorkspace ⟨7, some "/srv/x", some "ssh", some "", none, none⟩).map
      (fun w => w.is_ssh) = some true := by decide

/-- C4 (amended): rows whose path is NULL, non-string or empty are
skipped before normalization (`if not path or ...: continue`), and only
such rows can normalize to the empty key; hence for a sequence of rows in
which every present path normalizes to the empty key, no record is
created at all and the deduplicated result is empty — the raw-id fallback
holds no records either, so nothing is recovered. -/
theorem c4_all_empty_keys_empty_result (rows : List Row)
    (h : ∀ r ∈ rows, ∀ p : String, r.path = some p → normalize p = "") :
    loadWorkspaces (Except.ok rows) = [] :=
  loadWorkspaces_empty_of_no_records (records_nil_of_empty_keys h)

/-- Witness for C4 (amended) at the one-row list with an empty path. -/
theorem c4_witness :
    loadWorkspaces (Except.ok [(⟨1, some "", none, none, none, none⟩ : Row)]) = [] ∧
    ([(⟨1, some "", none, none, none, none⟩ : Row)].length = 1) :=
  ⟨c4_all_empty_keys_empty_result _ (by
      intro r hr p hp
      have hre := List.mem_singleton.mp hr
      subst hre
      have hp2 : some "" = some p := hp
      injection hp2 with hp3
      rw [← hp3]
      decide),
   by decide⟩

/-- Counterexample to C4 as stated: a non-empty row list whose paths are
all empty strings produces the empty result set — the raw-id fallback
never sees these rows, so they are dropped, not recovered. -/
theorem c4_counterexample :
    ([(⟨1, some "", none, none, none, none⟩ : Row)] ≠ []) ∧
    loadWorkspaces (Except.ok [⟨1, some "", none, none, none, none⟩]) = [] := by
  exact ⟨by decide, by decide⟩

/-- C5 (amended): the display title is the final path segment (or the
full path when no segment exists) with its first character upper-cased
and every remaining character lower-cased (Python `str.capitalize`),
followed by the `" (SSH: <host>)"` / `" (WSL)"` / empty suffix. -/
theorem c5_title_first_upper_rest_lower (w : Workspace) : titleOf w = titleAmended w :=
  titleOf_eq_titleAmended w

/-- Counterexample to C5 as stated: for the path `"/a/MyProj"` the code
produces `"Myproj"` (the rest of the segment is lower-cased), not the
claimed `"MyProj"` (rest unchanged). -/
theorem c5_counterexample :
    titleOf (mkWorkspace 1 "/a/MyProj" none none none none) = "Myproj" ∧
    titleClaimed (mkWorkspace 1 "/a/MyProj" none none none none) = "MyProj" ∧
    titleOf (mkWorkspace 1 "/a/MyProj" none none none none) ≠
      titleClaimed (mkWorkspace 1 "/a/MyProj" none none none none) := by
  exact ⟨by decide, by decide, by decide⟩

/-- C6: a row with remote kind `"ssh"`, a non-empty host and any path —
in particular one starting with `/home/` or `/mnt/` — classifies as SSH
and not WSL; and in general the WSL flag of a derived record equals
"not SSH and the raw path has a WSL prefix", so WSL detection is only
effective when the row is not SSH. -/
theorem c6_ssh_priority_over_wsl :
    (∀ (r : Row) (w : Workspace), toWorkspace r = some w →
      r.rc_kind = some "ssh" → (∃ hst, r.rc_host = some hst ∧ hst ≠ "") →
      w.is_ssh = true ∧ w.is_wsl = false) ∧
    (∀ (r : Row) (w : Workspace), toWorkspace r = some w →
      w.is_wsl = (!w.is_ssh && is_wsl_path w.path)) := by
  constructor
  · intro r w h hk hh
    unfold toWorkspace at h
    cases hp : r.path with
    | none =>
      rw [hp] at h
      simp at h
    | some p =>
      rw [hp] at h
      have h2 : (if p = "" then none
        else some (mkWorkspace r.wid p r.rc_kind r.rc_host r.rc_port r.rc_user)) = some w := h
      split at h2
      · cases h2
      · injection h2 with h2
        subst h2
        obtain ⟨hst, hhost, _⟩ := hh
        constructor
        · show (decide (r.rc_kind = some "ssh") && r.rc_host.isSome) = true
          rw [hk, hhost]
          simp
        · show (!(decide (r.rc_kind = some "ssh") && r.rc_host.isSome) && is_wsl_path p) = false
          rw [hk, hhost]
          simp
  · intro r w h
    unfold toWorkspace at h
    cases hp : r.path with
    | none =>
      rw [hp] at h
      simp at h
    | some p =>
      rw [hp] at h
      have h2 : (if p = "" then none
        else some (mkWorkspace r.wid p r.rc_kind r.rc_host r.rc_port r.rc_user)) = some w := h
      split at h2
      · cases h2
      · injection h2 with h2
        subst h2
        rfl

/-- Witness for C6: row with kind `"ssh"`, host `"h"` and the WSL-looking
path `"/home/u/x"` is SSH and not WSL. -/
theorem c6_witness :
    is_wsl_path "/home/u/x" = true ∧
    (mkWorkspace 9 "/home/u/x" (some "ssh") (some "h") none none).is_ssh = true ∧
    (mkWorkspace 9 "/home/u/x" (some "ssh") (some "h") none none).is_wsl = false := by
  refine ⟨by decide, ?_, ?_⟩
  · exact (c6_ssh_priority_over_wsl.1 ⟨9, some "/home/u/x", some "ssh", some "h", none, none⟩
      _ (by decide) (by decide) ⟨"h", by decide, by decide⟩).1
  · exact (c6_ssh_priority_over_wsl.1 ⟨9, some "/home/u/x", some "ssh", some "h", none, none⟩
      _ (by decide) (by decide) ⟨"h", by decide, by decide⟩).2

/-- C7: the path normalization of src/main.py lines 36-46 is idempotent. -/
theorem c7_normalize_idempotent (p : String) : normalize (normalize p) = normalize p :=
  congrArg String.mk (normalizeChars_idem p.data)

/-- C8 (amended): the final presentation dedup keeps exactly the first
entry for each (stripped-and-lower-cased title, stripped-and-lower-cased
subtitle) key: it equals the pass that keeps each head and deletes every
later entry with the same stripped/lowered key, preserving first-seen
order. -/
theorem c8_dedup_first_seen_by_stripped_key (l : List Pres) :
    dedupPresentation l = specSurvivors l := by
  unfold dedupPresentation
  rw [dedupPresAux_spec l []]
  have hf : (l.filter (fun q => decide (keyOf q ∉ ([] : List (String × String))))) = l :=
    List.filter_eq_self.mpr (fun a _ => by simp)
  rw [hf]

/-- Counterexample to C8 as stated: two pipeline-produced entries with
subtitles `" /a"` and `"/a"` have different lower-cased pairs (no
stripping), yet the code's pass removes the second one because it strips
whitespace before lower-casing. -/
theorem c8_counterexample :
    dedupPresentation [presOf (mkWorkspace 1 " /a" none none none none),
        presOf (mkWorkspace 2 "/a" none none none none)]
      = [presOf (mkWorkspace 1 " /a" none none none none)] ∧
    keyLower (presOf (mkWorkspace 1 " /a" none none none none)) ≠
      keyLower (presOf (mkWorkspace 2 "/a" none none none none)) ∧
    dedupPresentationLower [presOf (mkWorkspace 1 " /a" none none none none),
        presOf (mkWorkspace 2 "/a" none none none none)]
      = [presOf (mkWorkspace 1 " /a" none none none none),
         presOf (mkWorkspace 2 "/a" none none none none)] := by
  exact ⟨by decide, by decide, by decide⟩

/-- C9: a non-empty path never normalizes to the empty key, the two
grouping dicts are empty together (exactly when no usable row exists),
and therefore the deduplicated result always comes from the
normalized-key dict — the raw-id fallback branch never contributes. -/
theorem c9_fallback_unreachable :
    (∀ p : String, p ≠ "" → normalize p ≠ "") ∧
    (∀ rows : List Row, byNormalized rows = [] ↔ byWorkspaceId rows = []) ∧
    (∀ rows : List Row, dedupValues rows = (byNormalized rows).map Prod.snd) := by
  refine ⟨fun p h => normalize_ne_empty h, fun rows => ?_, dedupValues_eq_byNormalized⟩
  rw [byNormalized_nil_iff, byWorkspaceId_nil_iff]

/-- Witness for C9 at concrete inputs. -/
theorem c9_witness :
    normalize "A" ≠ "" ∧
    dedupValues [(⟨1, some "/a", none, none, none, none⟩ : Row)]
      = (byNormalized [(⟨1, some "/a", none, none, none, none⟩ : Row)]).map Prod.snd :=
  ⟨c9_fallback_unreachable.1 "A" (by decide),
   c9_fallback_unreachable.2.2 [(⟨1, some "/a", none, none, none, none⟩ : Row)]⟩

/-- C10 (amended): `context_menu` requires a non-empty `data` list —
indexing `data[0]` fails on the empty list (modelled by `none`) — and
additionally needs its first element to be a string, or its second
element (defaulting to `False`) to be truthy, because `is_wsl_path` is
called on `data[0]` in the non-SSH branch; under that precondition it
returns exactly one action descriptor. -/
theorem c10_context_menu_precondition :
    context_menu ([] : List PyVal) = none ∧
    ∀ (d : PyVal) (rest : List PyVal),
      ((∃ s, d = PyVal.vstr s) ∨ pyTruthy ((d :: rest).getD 1 (PyVal.vbool false)) = true) →
      ∃ item, context_menu (d :: rest) = some [item] := by
  refine ⟨rfl, ?_⟩
  intro d rest h
  obtain ⟨lbl, hl⟩ :=
    cmLabel_isSome_of d ((d :: rest).getD 1 (.vbool false)) ((d :: rest).getD 2 .vnone) h
  refine ⟨{ Title := "Open in Zed " ++ lbl
            SubTitle := d
            IcoPath := "assets/zed.png"
            action := { method := "open_in_zed",
                        parameters := [d, (d :: rest).getD 1 (.vbool false),
                          (d :: rest).getD 2 .vnone, (d :: rest).getD 3 .vnone,
                          (d :: rest).getD 4 .vnone] } }, ?_⟩
  rw [context_menu_cons, hl]
  rfl

/-- Witness for C10 (amended): the singleton string list yields one
descriptor, and the empty list yields none. -/
theorem c10_witness :
    context_menu ([] : List PyVal) = none ∧
    ∃ item, context_menu [PyVal.vstr "/x"] = some [item] :=
  ⟨c10_context_menu_precondition.1,
   c10_context_menu_precondition.2 (PyVal.vstr "/x") [] (Or.inl ⟨"/x", rfl⟩)⟩

/-- Counterexample to C10 as stated: the one-element list `[0]` (an
integer first element, falsy second default) makes the code raise
`AttributeError` inside `is_wsl_path` rather than return a descriptor. -/
theorem c10_counterexample :
    ([PyVal.vint 0] : List PyVal).length = 1 ∧ context_menu [PyVal.vint 0] = none := by
  exact ⟨by decide, by decide⟩
end ZedFlow
